import Mathlib

/-!
Verification development for the `git_copyright` repository.

Rust strings are shallowly embedded as `List Char` (a Rust `String`/`&str`
is a sequence of chars; all operations the program performs on them —
`split('\n')`, `replace`, `join`, `starts_with`, `chars().map` — are
sequence operations).  External effects (the `git` subprocess output,
`Utc::now`, thread scheduling, the hash function of `DefaultHasher`) are
passed as explicit parameters.
-/

/-- A Rust string, embedded as its character sequence. -/
abbrev Str := List Char

/-- Convenience coercion from Lean string literals into the embedding. -/
def strL (s : String) : Str := s.toList

/-- Embedding of Rust `str::split('\n')`: the pieces between newline
characters.  Splitting the empty string gives `[""]`, a trailing newline
yields a trailing empty piece — exactly Rust's `split` semantics. -/
def splitNl : Str → List Str
  | [] => [[]]
  | c :: cs =>
    if c = '\n' then [] :: splitNl cs
    else
      match splitNl cs with
      | [] => [[c]]
      | p :: ps => (c :: p) :: ps

/-- Join of the tail pieces of a line list: each piece is prefixed by one
newline (the shape `flat_map (|line| ["\n", line])` used in `file_ops.rs`). -/
def tailJoin (ls : List Str) : Str := ls.flatMap (fun l => '\n' :: l)

/-- Join a line list with a single newline per line boundary
(Rust-side: the reconstruction performed by `updated_content`). -/
def joinNl : List Str → Str
  | [] => []
  | a :: rest => a ++ tailJoin rest

/-- `CommentSign` from `lib.rs`: a line-comment prefix, or an enclosing
pair of delimiters. -/
inductive CommentSign : Type
  | LeftOnly (left : Str)
  | Enclosing (left right : Str)
deriving DecidableEq, Repr

/-- Embedding of Rust `str::replace(pat, rep)` with non-empty pattern
`p :: ps`: scan left to right, replacing each non-overlapping occurrence.
The fuel argument only makes the recursion structural (every step consumes
at least one character, so fuel `s.length` is never exhausted). -/
def replaceAllGo (p : Char) (ps rep : Str) : Nat → Str → Str
  | _, [] => []
  | 0, s => s
  | fuel + 1, c :: rest =>
    if (p :: ps).isPrefixOf (c :: rest) then
      rep ++ replaceAllGo p ps rep fuel (rest.drop ps.length)
    else
      c :: replaceAllGo p ps rep fuel rest

/-- Embedding of Rust `str::replace(pat, rep)` with non-empty pattern
`p :: ps`. -/
def replaceAll (p : Char) (ps rep : Str) (s : Str) : Str :=
  replaceAllGo p ps rep s.length s

/-- `generate_copyright_line` from `regex_ops.rs`: substitute the years into
the template, then assemble the line with the comment delimiters via
`[...].join(" ")` — note that `join(" ")` inserts the separator between all
elements, including around the explicit `" "` elements of the array. -/
def generate_copyright_line (template : Str) (comment_sign : CommentSign) (years : Str) : Str :=
  let copyright := replaceAll '\x7b' (strL "years\x7d") years template
  match comment_sign with
  | CommentSign.LeftOnly left =>
      List.intercalate (strL " ") [left, strL " ", copyright]
  | CommentSign.Enclosing left right =>
      List.intercalate (strL " ") [left, strL " ", copyright, strL " ", right]

/-- `escape_for_regex` from `regex_ops.rs`, per-character part: the eight
special characters are backslash-escaped, every other character is kept. -/
def escapeChar (c : Char) : Str :=
  if c = '*' then ['\\', '*']
  else if c = '.' then ['\\', '.']
  else if c = '(' then ['\\', '(']
  else if c = ')' then ['\\', ')']
  else if c = '\x7b' then ['\\', '\x7b']
  else if c = '\x7d' then ['\\', '\x7d']
  else if c = '^' then ['\\', '^']
  else if c = '$' then ['\\', '$']
  else [c]

/-- `escape_for_regex` from `regex_ops.rs`: `chars().map(...).collect()`. -/
def escape_for_regex (text : Str) : Str := text.flatMap escapeChar

/-- The `YEARS_REGEX` constant of `generate_copyright_regex`. -/
def YEARS_REGEX : Str := strL "(\\d\x7b4\x7d(-\\d\x7b4\x7d)\x7b0,1\x7d)"

/-- `generate_copyright_regex` from `regex_ops.rs`, up to the final
`Regex::new` call (the `regex` crate itself is modelled separately by
`compileRegex`/`reMatch` below): escape the template, substitute the escaped
years placeholder by `YEARS_REGEX`, and anchor the expression around the
escaped comment delimiters.  `join("")` is plain concatenation. -/
def generate_copyright_regex (template : Str) (comment_sign : CommentSign) : Str :=
  let template :=
    replaceAll '\\' (strL "\x7byears\\\x7d") YEARS_REGEX (escape_for_regex template)
  match comment_sign with
  | CommentSign.LeftOnly left_sign =>
      strL "^" ++ escape_for_regex left_sign ++ strL " " ++ template ++ strL "$"
  | CommentSign.Enclosing left_sign right_sign =>
      strL "^" ++ escape_for_regex left_sign ++ strL " " ++ template ++ strL " "
        ++ escape_for_regex right_sign ++ strL "$"

/-- The year-collapsing policy of `get_added_mod_times_for_file`
(`git_ops.rs`): the commit-year list is ordered newest first; zero entries
fall back to the current year, one entry is used as is, with more entries
the first (`years_iter.next()`) is the last-modified year and the last of
the remainder (`years_iter.last()`) is the added year. -/
def collapse_years (current_year : Str) (commit_years : List Str) : Str :=
  match commit_years with
  | [] => current_year
  | [y] => y
  | y1 :: y2 :: rest =>
    let last_modified := y1
    let added := (y2 :: rest).getLast (List.cons_ne_nil y2 rest)
    if added = last_modified then added
    else added ++ strL "-" ++ last_modified

/-- Parsing of the `git log --pretty=%ci` output in
`get_added_mod_times_for_file`: split on newlines, drop empty lines, keep
the first four characters (the year) of each line. -/
def parse_commit_years (stdout : Str) : List Str :=
  ((splitNl stdout).filter (fun s => !s.isEmpty)).map (fun s => s.take 4)

/-- `get_added_mod_times_for_file` from `git_ops.rs`.  The `git log`
subprocess and `Utc::now()` are external effects: the subprocess stdout and
the formatted current year are passed as parameters. -/
def get_added_mod_times_for_file (current_year : Str) (git_log_stdout : Str) : Str :=
  collapse_years current_year (parse_commit_years git_log_stdout)

/-- `updated_content` from `file_ops.rs`: with a line index, rebuild the
content from its newline-split pieces replacing the piece at that index;
without one, insert the copyright line after a shebang line, or prepend it
followed by a blank line. -/
def updated_content (content copyright_line : Str) (line_idx : Option Nat) : Str :=
  match line_idx with
  | some li =>
    ((splitNl content).enum.flatMap fun p =>
      if p.1 = li then
        if p.1 = 0 then [[], copyright_line] else [['\n'], copyright_line]
      else if p.1 = 0 then [[], p.2]
      else [['\n'], p.2]).flatten
  | none =>
    if !content.isEmpty && (strL "#!").isPrefixOf content then
      let pieces := splitNl content
      pieces.headD [] ++ strL "\n" ++ copyright_line
        ++ (pieces.tail.flatMap fun line => '\n' :: line)
    else
      copyright_line ++ strL "\n\n" ++ content

/-!
Model of the `regex` crate on the fragment of pattern syntax the program
generates: literal characters, backslash-escapes of the eight characters
handled by `escape_for_regex`, the `\d` digit class, groups `( )`,
single-digit counted repetitions `{n}` / `{n,m}`, and the outer `^ … $`
anchors the program always emits.  Patterns outside this fragment are out
of the modelled subset (`none`).  Matching is anchored whole-string
language membership, which for boolean matching agrees with the crate's
automaton semantics.
-/

/-- Regular-expression abstract syntax (capture groups are transparent for
boolean matching). -/
inductive RE : Type
  | eps
  | lit (c : Char)
  | digit
  | seq (a b : RE)
  | alt (a b : RE)
deriving DecidableEq, Repr

/-- Sequence of a list of regexes. -/
def seqList (rs : List RE) : RE := rs.foldr RE.seq RE.eps

/-- `n`-fold repetition. -/
def rePow : Nat → RE → RE
  | 0, _ => RE.eps
  | n + 1, r => RE.seq r (rePow n r)

/-- Up to `n` further optional repetitions. -/
def reOptPow : Nat → RE → RE
  | 0, _ => RE.eps
  | n + 1, r => RE.alt RE.eps (RE.seq r (reOptPow n r))

/-- Counted repetition `{n,m}`: exactly `n` copies then up to `m - n` more. -/
def repRange (n m : Nat) (r : RE) : RE := RE.seq (rePow n r) (reOptPow (m - n) r)

/-- Anchored (whole-string) matching of the abstract syntax. -/
def reMatch : RE → Str → Bool
  | RE.eps, s => s.isEmpty
  | RE.lit c, s => s = [c]
  | RE.digit, s =>
    match s with
    | [c] => c.isDigit
    | _ => false
  | RE.seq a b, s =>
    (List.range (s.length + 1)).any fun i => reMatch a (s.take i) && reMatch b (s.drop i)
  | RE.alt a b, s => reMatch a s || reMatch b s

/-- Pattern tokens. -/
inductive Tok : Type
  | lit (c : Char)
  | digit
  | lparen
  | rparen
  | rep (n m : Nat)
deriving DecidableEq, Repr

/-- The characters that are pattern operators in the `regex` crate (within
the modelled fragment: any of these unescaped is either handled structurally
or out of the subset). -/
def isMeta (c : Char) : Bool :=
  c ∈ (['\\', '^', '$', '*', '.', '(', ')', '\x7b', '\x7d', '[', ']', '|', '+', '?'] : List Char)

/-- The characters `escape_for_regex` escapes. -/
def isEscapable (c : Char) : Bool :=
  c ∈ (['*', '.', '(', ')', '\x7b', '\x7d', '^', '$'] : List Char)

/-- Digit value of a decimal digit character, if any. -/
def charDigit (c : Char) : Option Nat :=
  if c.isDigit then some (c.toNat - '0'.toNat) else none

/-- Pattern-lexer state: between tokens, after a backslash, or inside a
counted-repetition specification. -/
inductive LexState : Type
  | idle
  | esc
  | rep0
  | rep1 (n : Nat)
  | rep2 (n : Nat)
  | rep3 (n m : Nat)
deriving DecidableEq, Repr

/-- Tokenize a pattern body (anchors already stripped), one character at a
time: backslash escapes of the eight escapable characters and `\d`, groups,
and single-digit counted repetitions; any other metacharacter use is out of
the modelled fragment. -/
def tokenizeSt : LexState → Str → Option (List Tok)
  | LexState.idle, [] => some []
  | LexState.esc, [] => none
  | LexState.rep0, [] => none
  | LexState.rep1 _, [] => none
  | LexState.rep2 _, [] => none
  | LexState.rep3 _ _, [] => none
  | LexState.idle, c :: rest =>
    if c = '\\' then tokenizeSt LexState.esc rest
    else if c = '\x7b' then tokenizeSt LexState.rep0 rest
    else if c = '(' then (tokenizeSt LexState.idle rest).map (Tok.lparen :: ·)
    else if c = ')' then (tokenizeSt LexState.idle rest).map (Tok.rparen :: ·)
    else if isMeta c then none
    else (tokenizeSt LexState.idle rest).map (Tok.lit c :: ·)
  | LexState.esc, e :: rest =>
    if e = 'd' then (tokenizeSt LexState.idle rest).map (Tok.digit :: ·)
    else if isEscapable e then (tokenizeSt LexState.idle rest).map (Tok.lit e :: ·)
    else none
  | LexState.rep0, d :: rest =>
    match charDigit d with
    | some n => tokenizeSt (LexState.rep1 n) rest
    | none => none
  | LexState.rep1 n, c :: rest =>
    if c = '\x7d' then (tokenizeSt LexState.idle rest).map (Tok.rep n n :: ·)
    else if c = ',' then tokenizeSt (LexState.rep2 n) rest
    else none
  | LexState.rep2 n, d :: rest =>
    match charDigit d with
    | some m => tokenizeSt (LexState.rep3 n m) rest
    | none => none
  | LexState.rep3 n m, c :: rest =>
    if c = '\x7d' then (tokenizeSt LexState.idle rest).map (Tok.rep n m :: ·)
    else none

/-- Tokenize a pattern body from the idle state. -/
def tokenize (s : Str) : Option (List Tok) := tokenizeSt LexState.idle s

/-- Parse a token list into a regex, with a stack of open groups; each stack
level accumulates the parsed atoms of its sequence in reverse. -/
def parseLoop : List Tok → List (List RE) → Option RE
  | [], [acc] => some (seqList acc.reverse)
  | [], _ => none
  | Tok.lit c :: ts, acc :: stk => parseLoop ts ((RE.lit c :: acc) :: stk)
  | Tok.digit :: ts, acc :: stk => parseLoop ts ((RE.digit :: acc) :: stk)
  | Tok.lparen :: ts, stk => parseLoop ts ([] :: stk)
  | Tok.rparen :: ts, acc :: outer :: stk =>
      parseLoop ts ((seqList acc.reverse :: outer) :: stk)
  | Tok.rep n m :: ts, (a :: acc) :: stk =>
      if n ≤ m then parseLoop ts ((repRange n m a :: acc) :: stk) else none
  | _, _ => none

/-- Model of `Regex::new` on the generated patterns: require the leading
`^` and trailing `$` anchor the whole expression, tokenize and parse the
body. -/
def compileRegex : Str → Option RE
  | '^' :: body =>
    if body.getLast? = some '$' then (tokenize body.dropLast).bind (parseLoop · [[]])
    else none
  | _ => none

/-- Model of `Regex::is_match` (and of whether `captures_iter` yields a
match) for an anchored pattern: compile, then anchored language
membership.  `none` when the pattern is outside the modelled fragment. -/
def regexIsMatch (pattern line : Str) : Option Bool :=
  (compileRegex pattern).map (fun r => reMatch r line)

/-! ### Lemmas about newline splitting and joining -/

theorem splitNl_ne_nil (s : Str) : splitNl s ≠ [] := by
  induction s with
  | nil => simp [splitNl]
  | cons c cs ih =>
    simp only [splitNl]
    split
    · simp
    · cases h : splitNl cs <;> simp

theorem tailJoin_cons (a : Str) (ls : List Str) :
    tailJoin (a :: ls) = '\n' :: (a ++ tailJoin ls) := by
  simp [tailJoin]

theorem splitNl_cons_nl (cs : Str) : splitNl ('\n' :: cs) = [] :: splitNl cs := by
  simp [splitNl]

theorem splitNl_cons_of (c : Char) (cs : Str) (p : Str) (ps : List Str)
    (hc : c ≠ '\n') (h : splitNl cs = p :: ps) :
    splitNl (c :: cs) = (c :: p) :: ps := by
  simp only [splitNl]
  rw [if_neg hc, h]

theorem joinNl_cons (a : Str) (ls : List Str) : joinNl (a :: ls) = a ++ tailJoin ls := rfl

theorem joinNl_splitNl (s : Str) : joinNl (splitNl s) = s := by
  induction s with
  | nil => simp [splitNl, joinNl, tailJoin]
  | cons c cs ih =>
    cases h : splitNl cs with
    | nil => exact absurd h (splitNl_ne_nil cs)
    | cons p ps =>
      rw [h, joinNl_cons] at ih
      by_cases hc : c = '\n'
      · subst hc
        rw [splitNl_cons_nl, h, joinNl_cons, List.nil_append, tailJoin_cons, ih]
      · rw [splitNl_cons_of c cs p ps hc h, joinNl_cons, List.cons_append, ih]

theorem not_mem_splitNl (s : Str) : ∀ p ∈ splitNl s, '\n' ∉ p := by
  induction s with
  | nil => simp [splitNl]
  | cons c cs ih =>
    cases h : splitNl cs with
    | nil => exact absurd h (splitNl_ne_nil cs)
    | cons q qs =>
      by_cases hc : c = '\n'
      · subst hc
        rw [splitNl_cons_nl]
        intro p hp
        rcases List.mem_cons.1 hp with h' | h'
        · subst h'; simp
        · exact ih p h'
      · rw [splitNl_cons_of c cs q qs hc h]
        intro p hp
        rcases List.mem_cons.1 hp with h' | h'
        · subst h'
          intro hmem
          rcases List.mem_cons.1 hmem with h'' | h''
          · exact hc h''.symm
          · exact ih q (h ▸ List.mem_cons_self q qs) h''
        · exact ih p (h ▸ List.mem_cons_of_mem q h')

theorem splitNl_no_nl (a : Str) (ha : '\n' ∉ a) : splitNl a = [a] := by
  induction a with
  | nil => rfl
  | cons c cs ih =>
    simp only [List.mem_cons, not_or] at ha
    exact splitNl_cons_of c cs cs [] (fun h => ha.1 h.symm) (ih ha.2)

theorem splitNl_append_nl (a rest : Str) (ha : '\n' ∉ a) :
    splitNl (a ++ '\n' :: rest) = a :: splitNl rest := by
  induction a with
  | nil => simp [splitNl_cons_nl]
  | cons c cs ih =>
    simp only [List.mem_cons, not_or] at ha
    cases h : splitNl rest with
    | nil => exact absurd h (splitNl_ne_nil rest)
    | cons q qs =>
      have step := ih ha.2
      rw [h] at step
      rw [List.cons_append,
        splitNl_cons_of c (cs ++ '\n' :: rest) cs (q :: qs) (fun hx => ha.1 hx.symm) step]

theorem splitNl_joinNl (ls : List Str) (hne : ls ≠ [])
    (hnl : ∀ p ∈ ls, '\n' ∉ p) : splitNl (joinNl ls) = ls := by
  induction ls with
  | nil => exact absurd rfl hne
  | cons a t ih =>
    cases t with
    | nil =>
      simp only [joinNl_cons, tailJoin, List.flatMap_nil, List.append_nil]
      exact splitNl_no_nl a (hnl a (List.mem_cons_self a []))
    | cons b t' =>
      simp only [joinNl_cons, tailJoin_cons]
      rw [splitNl_append_nl a _ (hnl a (List.mem_cons_self a _))]
      have hrec : splitNl (joinNl (b :: t')) = b :: t' := by
        refine ih (by simp) ?_
        intro p hp
        exact hnl p (List.mem_cons_of_mem a hp)
      rw [joinNl_cons] at hrec
      rw [hrec]

/-! ### Characterization of `updated_content` -/

/-- The per-line piece function of `updated_content`'s `Some(line_idx)`
branch (named here to reason about the `flat_map`). -/
def somePiece (copyright_line : Str) (li : Nat) (p : Nat × Str) : List Str :=
  if p.1 = li then
    if p.1 = 0 then [[], copyright_line] else [['\n'], copyright_line]
  else if p.1 = 0 then [[], p.2]
  else [['\n'], p.2]

theorem updated_content_some_def (content cl : Str) (li : Nat) :
    updated_content content cl (some li)
      = ((splitNl content).enum.flatMap (somePiece cl li)).flatten := rfl

theorem somePiece_pos (cl : Str) (li k : Nat) (x : Str) (hk : k ≠ 0) :
    somePiece cl li (k, x) = if k = li then [['\n'], cl] else [['\n'], x] := by
  simp [somePiece, hk]

theorem somePiece_zero (cl : Str) (li : Nat) (x : Str) :
    somePiece cl li (0, x) = if 0 = li then [([] : Str), cl] else [[], x] := by
  simp [somePiece]

theorem flatten_enumFrom_somePiece (cl : Str) (li : Nat) :
    ∀ (r : List Str) (k : Nat), 0 < k →
      ((List.enumFrom k r).flatMap (somePiece cl li)).flatten
        = tailJoin (if k ≤ li ∧ li - k < r.length then r.set (li - k) cl else r) := by
  intro r
  induction r with
  | nil =>
    intro k hk
    simp [tailJoin]
  | cons x r' ih =>
    intro k hk
    have hk0 : k ≠ 0 := by omega
    have hih := ih (k + 1) (by omega)
    rw [List.enumFrom_cons, List.flatMap_cons, List.flatten_append,
      somePiece_pos cl li k x hk0, hih]
    by_cases hkli : k = li
    · subst hkli
      rw [if_pos rfl,
        if_neg (show ¬(k + 1 ≤ k ∧ k - (k + 1) < r'.length) by omega),
        if_pos (show k ≤ k ∧ k - k < (x :: r').length by
          simp only [List.length_cons]; omega),
        Nat.sub_self, List.set_cons_zero, tailJoin_cons]
      simp [List.flatten]
    · rw [if_neg hkli]
      by_cases hin : k + 1 ≤ li ∧ li - (k + 1) < r'.length
      · rw [if_pos hin,
          if_pos (show k ≤ li ∧ li - k < (x :: r').length by
            simp only [List.length_cons]; omega)]
        rw [show li - k = li - (k + 1) + 1 by omega, List.set_cons_succ, tailJoin_cons]
        simp [List.flatten]
      · rw [if_neg hin,
          if_neg (show ¬(k ≤ li ∧ li - k < (x :: r').length) by
            simp only [List.length_cons]; omega),
          tailJoin_cons]
        simp [List.flatten]

/-- `updated_content` with a line index is: split into lines, replace the
line at that index (a no-op if the index is out of range), rejoin with one
newline per line boundary. -/
theorem updated_content_some_eq (content cl : Str) (li : Nat) :
    updated_content content cl (some li) = joinNl ((splitNl content).set li cl) := by
  rw [updated_content_some_def]
  cases h : splitNl content with
  | nil => exact absurd h (splitNl_ne_nil content)
  | cons x r =>
    rw [List.enum_eq_enumFrom, List.enumFrom_cons, List.flatMap_cons, List.flatten_append,
      somePiece_zero, flatten_enumFrom_somePiece cl li r 1 (by omega)]
    by_cases h0 : li = 0
    · subst h0
      rw [if_pos rfl,
        if_neg (show ¬(1 ≤ 0 ∧ 0 - 1 < r.length) by omega),
        List.set_cons_zero, joinNl_cons]
      simp [List.flatten]
    · obtain ⟨j, rfl⟩ : ∃ j, li = j + 1 := ⟨li - 1, by omega⟩
      rw [if_neg (show ¬((0 : Nat) = j + 1) by omega), List.set_cons_succ, joinNl_cons]
      by_cases hin : j < r.length
      · rw [if_pos (show 1 ≤ j + 1 ∧ j + 1 - 1 < r.length by omega)]
        simp only [Nat.add_sub_cancel]
        simp [List.flatten]
      · rw [if_neg (show ¬(1 ≤ j + 1 ∧ j + 1 - 1 < r.length) by omega),
          List.set_eq_of_length_le (show r.length ≤ j by omega)]
        simp [List.flatten]

theorem shebang_implies_nonempty (content : Str)
    (h : (strL "#!").isPrefixOf content = true) : content.isEmpty = false := by
  cases content with
  | nil => simp [strL, List.isPrefixOf] at h
  | cons c cs => rfl

/-- General shape of `updated_content` without a line index: after a shebang
the copyright line becomes the new second line; otherwise it is prepended,
followed by a blank line, before the unchanged content. -/
theorem updated_content_none_eq (content cl : Str) :
    updated_content content cl none =
      if (strL "#!").isPrefixOf content then
        joinNl ((splitNl content).headD [] :: cl :: (splitNl content).tail)
      else cl ++ '\n' :: '\n' :: content := by
  unfold updated_content
  by_cases hp : (strL "#!").isPrefixOf content = true
  · rw [if_pos hp, shebang_implies_nonempty content hp]
    simp only [Bool.not_false, Bool.true_and, hp, if_pos]
    rw [joinNl_cons, tailJoin_cons]
    simp [strL, tailJoin]
  · rw [if_neg hp]
    have hf : (strL "#!").isPrefixOf content = false := by
      revert hp
      cases (strL "#!").isPrefixOf content <;> simp
    rw [hf, Bool.and_false, if_neg (by simp)]
    simp [strL]

/-!  ### Claim theorems for the content rewriter and the year collapsing  -/

/-- C5: for a copyright line without embedded newlines and a 0-based index
naming an existing line, `updated_content` with `Some(index)` replaces
exactly the line at that index, keeps every other line verbatim and in
order, and rejoins with exactly one newline separator per line boundary
(so the input's trailing-newline shape is preserved); equivalently, the
result is the original line list with the index replaced, rejoined, and its
line list is exactly that replaced list. -/
theorem updated_content_replace_at_index (content cl : Str) (li : Nat)
    (hli : li < (splitNl content).length) (hcl : '\n' ∉ cl) :
    updated_content content cl (some li) = joinNl ((splitNl content).set li cl)
    ∧ splitNl (updated_content content cl (some li)) = (splitNl content).set li cl := by
  refine ⟨updated_content_some_eq content cl li, ?_⟩
  rw [updated_content_some_eq content cl li]
  refine splitNl_joinNl _ ?_ ?_
  · have hpos : 0 < ((splitNl content).set li cl).length := by
      rw [List.length_set]
      exact List.length_pos.2 (splitNl_ne_nil content)
    exact List.length_pos.1 hpos
  · intro p hp
    rcases List.mem_or_eq_of_mem_set hp with h | h
    · exact not_mem_splitNl content p h
    · rw [h]; exact hcl

/-- Witness for C5 at a concrete input. -/
theorem updated_content_replace_at_index_witness :
    1 < (splitNl (strL "a\nb\nc\n")).length ∧ '\n' ∉ strL "X"
    ∧ updated_content (strL "a\nb\nc\n") (strL "X") (some 1)
        = joinNl ((splitNl (strL "a\nb\nc\n")).set 1 (strL "X"))
    ∧ splitNl (updated_content (strL "a\nb\nc\n") (strL "X") (some 1))
        = (splitNl (strL "a\nb\nc\n")).set 1 (strL "X") :=
  ⟨by decide, by decide,
    (updated_content_replace_at_index (strL "a\nb\nc\n") (strL "X") 1
      (by decide) (by decide)).1,
    (updated_content_replace_at_index (strL "a\nb\nc\n") (strL "X") 1
      (by decide) (by decide)).2⟩

/-- C10: `updated_content` with `Some(index)` where the index does not name
an existing line (index ≥ number of `'\n'`-split lines) returns the content
unchanged. -/
theorem updated_content_index_out_of_range (content cl : Str) (li : Nat)
    (hli : (splitNl content).length ≤ li) :
    updated_content content cl (some li) = content := by
  rw [updated_content_some_eq, List.set_eq_of_length_le hli, joinNl_splitNl]

/-- Witness for C10 at a concrete input. -/
theorem updated_content_index_out_of_range_witness :
    (splitNl (strL "a\nb")).length ≤ 5
    ∧ updated_content (strL "a\nb") (strL "X") (some 5) = strL "a\nb" :=
  ⟨by decide, updated_content_index_out_of_range (strL "a\nb") (strL "X") 5 (by decide)⟩

/-- C7: rewriting twice at the same existing index is the same as rewriting
once with the second line — the result is the original content with `lineB`
at the index and all other lines identical to the original. -/
theorem updated_content_roundtrip (content lineA lineB : Str) (li : Nat)
    (hli : li < (splitNl content).length) (hA : '\n' ∉ lineA) (hB : '\n' ∉ lineB) :
    updated_content (updated_content content lineA (some li)) lineB (some li)
      = joinNl ((splitNl content).set li lineB) := by
  rw [updated_content_some_eq content lineA li,
    updated_content_some_eq (joinNl ((splitNl content).set li lineA)) lineB li]
  have hsplit : splitNl (joinNl ((splitNl content).set li lineA))
      = (splitNl content).set li lineA := by
    refine splitNl_joinNl _ ?_ ?_
    · have hpos : 0 < ((splitNl content).set li lineA).length := by
        rw [List.length_set]
        exact List.length_pos.2 (splitNl_ne_nil content)
      exact List.length_pos.1 hpos
    · intro p hp
      rcases List.mem_or_eq_of_mem_set hp with h | h
      · exact not_mem_splitNl content p h
      · rw [h]; exact hA
  rw [hsplit, List.set_set]

/-- Witness for C7 at a concrete input. -/
theorem updated_content_roundtrip_witness :
    0 < (splitNl (strL "old\nrest\n")).length
    ∧ '\n' ∉ strL "A" ∧ '\n' ∉ strL "B"
    ∧ updated_content (updated_content (strL "old\nrest\n") (strL "A") (some 0))
        (strL "B") (some 0)
      = joinNl ((splitNl (strL "old\nrest\n")).set 0 (strL "B")) :=
  ⟨by decide, by decide, by decide,
    updated_content_roundtrip (strL "old\nrest\n") (strL "A") (strL "B") 0
      (by decide) (by decide) (by decide)⟩

/-- C6: without a line index, `updated_content` inserts the copyright line
as the new second line when the content starts with a shebang (`#!`), and
otherwise prepends the copyright line and a blank line before the unchanged
content; the empty content and shebang-only edge cases included. -/
theorem updated_content_insert_top :
    (∀ content cl : Str,
      updated_content content cl none =
        if (strL "#!").isPrefixOf content then
          joinNl ((splitNl content).headD [] :: cl :: (splitNl content).tail)
        else cl ++ '\n' :: '\n' :: content)
    ∧ updated_content [] (strL "# C 2024") none = strL "# C 2024" ++ '\n' :: '\n' :: []
    ∧ updated_content (strL "#!/bin/sh") (strL "# C 2024") none
        = joinNl [strL "#!/bin/sh", strL "# C 2024"]
    ∧ updated_content (strL "#!/bin/bash\n\necho hi\n") (strL "# C 2024") none
        = strL "#!/bin/bash\n# C 2024\n\necho hi\n" := by
  refine ⟨updated_content_none_eq, by decide, by decide, by decide⟩

theorem gen_line_LeftOnly (template years left : Str) :
    generate_copyright_line template (CommentSign.LeftOnly left) years
      = left ++ ' ' :: ' ' :: ' ' :: replaceAll '\x7b' (strL "years\x7d") years template := by
  simp [generate_copyright_line, List.intercalate, List.intersperse, strL]

theorem gen_line_Enclosing (template years left right : Str) :
    generate_copyright_line template (CommentSign.Enclosing left right) years
      = left ++ ' ' :: ' ' :: ' '
          :: (replaceAll '\x7b' (strL "years\x7d") years template
            ++ ' ' :: ' ' :: ' ' :: right) := by
  simp [generate_copyright_line, List.intercalate, List.intersperse, strL]

/-- C3 (code bug): `generate_copyright_line` builds the line with
`[left, " ", text].join(" ")`, which puts the explicit `" "` element
between two copies of the separator — three spaces separate the comment
delimiter(s) from the templated text, not the single space of the
documented format. -/
theorem generate_copyright_line_three_spaces :
    (∀ template years left : Str,
      generate_copyright_line template (CommentSign.LeftOnly left) years
        = left ++ ' ' :: ' ' :: ' ' :: replaceAll '\x7b' (strL "years\x7d") years template)
    ∧ (∀ template years left right : Str,
      generate_copyright_line template (CommentSign.Enclosing left right) years
        = left ++ ' ' :: ' ' :: ' '
            :: (replaceAll '\x7b' (strL "years\x7d") years template
              ++ ' ' :: ' ' :: ' ' :: right))
    ∧ generate_copyright_line (strL "Copyright \x7byears\x7d Acme.")
        (CommentSign.LeftOnly (strL "#")) (strL "2024")
      = strL "#   Copyright 2024 Acme."
    ∧ generate_copyright_line (strL "Copyright \x7byears\x7d Acme.")
        (CommentSign.LeftOnly (strL "#")) (strL "2024")
      ≠ strL "# Copyright 2024 Acme."
    ∧ generate_copyright_line (strL "Copyright \x7byears\x7d Acme.")
        (CommentSign.Enclosing (strL "/*") (strL "*/")) (strL "2024")
      = strL "/*   Copyright 2024 Acme.   */" := by
  exact ⟨gen_line_LeftOnly, gen_line_Enclosing, by decide, by decide, by decide⟩

/-- C1 (code bug): because `generate_copyright_line` separates the comment
delimiter from the templated text by three spaces while the pattern built by
`generate_copyright_regex` requires exactly one, the line produced for a
style/template is not matched by the pattern built for the same style and
template — while the single-space line is, with both comment-sign variants
behaving the same way. -/
theorem generated_line_not_matched_by_generated_regex :
    regexIsMatch
        (generate_copyright_regex (strL "Copyright \x7byears\x7d Acme.")
          (CommentSign.LeftOnly (strL "#")))
        (generate_copyright_line (strL "Copyright \x7byears\x7d Acme.")
          (CommentSign.LeftOnly (strL "#")) (strL "2024"))
      = some false
    ∧ regexIsMatch
        (generate_copyright_regex (strL "Copyright \x7byears\x7d Acme.")
          (CommentSign.LeftOnly (strL "#")))
        (strL "# Copyright 2024 Acme.")
      = some true
    ∧ regexIsMatch
        (generate_copyright_regex (strL "Copyright \x7byears\x7d Acme.")
          (CommentSign.Enclosing (strL "/*") (strL "*/")))
        (generate_copyright_line (strL "Copyright \x7byears\x7d Acme.")
          (CommentSign.Enclosing (strL "/*") (strL "*/")) (strL "2024"))
      = some false
    ∧ regexIsMatch
        (generate_copyright_regex (strL "Copyright \x7byears\x7d Acme.")
          (CommentSign.Enclosing (strL "/*") (strL "*/")))
        (strL "/* Copyright 2024 Acme. */")
      = some true := by
  refine ⟨by decide, by decide, by decide, by decide⟩

/-- C4: the year-collapsing policy — zero history entries give the current
year, one entry gives that year, with several entries (ordered newest
first) the head is the last-modified year and the last element the added
year, collapsed to a single year when equal and to `added-lastModified`
otherwise; including the spec's concrete examples on the full
`get_added_mod_times_for_file` pipeline. -/
theorem collapse_years_spec :
    (∀ current_year : Str, collapse_years current_year [] = current_year)
    ∧ (∀ (current_year y : Str), collapse_years current_year [y] = y)
    ∧ (∀ (current_year : Str) (ys : List Str), 2 ≤ ys.length →
        collapse_years current_year ys =
          if ys.getLastD [] = ys.headD [] then ys.headD []
          else ys.getLastD [] ++ strL "-" ++ ys.headD [])
    ∧ get_added_mod_times_for_file (strL "2026")
        (strL "2023-04-05 10:00:00 +0000\n2021-02-03 09:00:00 +0000\n2019-08-09 08:00:00 +0000\n")
      = strL "2019-2023"
    ∧ get_added_mod_times_for_file (strL "2026") (strL "2022-04-05 10:00:00 +0000\n")
      = strL "2022"
    ∧ get_added_mod_times_for_file (strL "2026") (strL "") = strL "2026" := by
  refine ⟨fun _ => rfl, fun _ _ => rfl, ?_, by decide, by decide, by decide⟩
  intro current_year ys h2
  match ys with
  | y1 :: y2 :: rest =>
    show (if (y2 :: rest).getLast (List.cons_ne_nil y2 rest) = y1 then
        (y2 :: rest).getLast (List.cons_ne_nil y2 rest)
      else (y2 :: rest).getLast (List.cons_ne_nil y2 rest) ++ strL "-" ++ y1) = _
    rw [List.getLast_eq_getLastD]
    rw [show (y1 :: y2 :: rest).getLastD [] = (y2 :: rest).getLastD y1 from
      List.getLastD_cons [] y1 (y2 :: rest)]
    rw [show (y2 :: rest).getLastD y1 = rest.getLastD y2 from
      List.getLastD_cons y1 y2 rest]
    simp only [List.headD]
    split <;> simp_all

/-- Witness for C4's conditional conjunct at a concrete input. -/
theorem collapse_years_spec_witness :
    2 ≤ ([strL "2023", strL "2021", strL "2019"] : List Str).length
    ∧ collapse_years (strL "2026") [strL "2023", strL "2021", strL "2019"]
        = strL "2019-2023" :=
  ⟨by decide, by
    rw [collapse_years_spec.2.2.1 (strL "2026")
      [strL "2023", strL "2021", strL "2019"] (by decide)]
    decide⟩

/-!  ### The regex cache (`RegexCache`, `regex_ops.rs`)  -/

/-- `RegexCache` from `regex_ops.rs`: a map from the hash of a
`CommentSign` to the compiled regex (represented by its pattern source),
plus the run's template.  The `HashMap<u64, Arc<Regex>>` behind the
`RwLock` is modelled as an association list; `get_hash` (a `DefaultHasher`
run) is an explicit function parameter. -/
structure RegexCache : Type where
  regexes : List (Nat × Str)
  template : Str
deriving DecidableEq, Repr

/-- `RegexCache::new`. -/
def RegexCache.new (template : Str) : RegexCache := ⟨[], template⟩

/-- `RegexCache::get_regex` in a sequential execution: look the comment
sign's hash up; on a hit return the cached regex and leave the cache
untouched, on a miss compile `generate_copyright_regex`, insert it under
the hash, and return it.  The returned `Bool` records whether a new regex
was built (the `debug!`/compile path). -/
def RegexCache.get_regex (cache : RegexCache) (hashFn : CommentSign → Nat)
    (comment_sign : CommentSign) : Str × RegexCache × Bool :=
  let comment_sign_hash := hashFn comment_sign
  match cache.regexes.lookup comment_sign_hash with
  | some regex => (regex, cache, false)
  | none =>
    let regex := generate_copyright_regex cache.template comment_sign
    (regex, { cache with regexes := (comment_sign_hash, regex) :: cache.regexes }, true)

theorem get_regex_caches (cache : RegexCache) (hashFn : CommentSign → Nat)
    (s : CommentSign) :
    ((cache.get_regex hashFn s).2.1).regexes.lookup (hashFn s)
      = some ((cache.get_regex hashFn s).1) := by
  unfold RegexCache.get_regex
  cases h : cache.regexes.lookup (hashFn s) with
  | some r => simp [h]
  | none => simp [h, List.lookup]

theorem get_regex_preserves_lookup (st : RegexCache) (hashFn : CommentSign → Nat)
    (sg : CommentSign) (k : Nat) (r : Str)
    (h : st.regexes.lookup k = some r) :
    ((st.get_regex hashFn sg).2.1).regexes.lookup k = some r := by
  unfold RegexCache.get_regex
  cases hm : st.regexes.lookup (hashFn sg) with
  | some r' => simpa [hm]
  | none =>
    have hk : k ≠ hashFn sg := by
      intro e
      rw [e, hm] at h
      exact Option.noConfusion h
    have hbeq : (k == hashFn sg) = false := beq_eq_false_iff_ne.2 hk
    simp [hm, List.lookup, hbeq, h]

theorem foldl_get_regex_preserves_lookup (hashFn : CommentSign → Nat)
    (later : List CommentSign) :
    ∀ (st : RegexCache) (k : Nat) (r : Str), st.regexes.lookup k = some r →
      ((later.foldl (fun c sg => (c.get_regex hashFn sg).2.1) st)).regexes.lookup k
        = some r := by
  induction later with
  | nil => intro st k r h; exact h
  | cons sg rest ih =>
    intro st k r h
    exact ih _ k r (get_regex_preserves_lookup st hashFn sg k r h)

theorem get_regex_hit (st : RegexCache) (hashFn : CommentSign → Nat)
    (s : CommentSign) (r : Str)
    (h : st.regexes.lookup (hashFn s) = some r) :
    st.get_regex hashFn s = (r, st, false) := by
  cases hm : List.lookup (hashFn s) st.regexes with
  | some r' =>
    rw [hm] at h
    obtain rfl := Option.some.inj h
    simp [RegexCache.get_regex, hm]
  | none =>
    rw [hm] at h
    exact Option.noConfusion h

/-- C9: in a sequential execution, once `get_regex` has been called for a
comment sign, every later call for an equal comment sign — whatever other
comment signs were requested in between — returns the regex cached by that
first call, does not build a new regex, and leaves the cache unchanged. -/
theorem regex_cache_never_recompiles (cache : RegexCache)
    (hashFn : CommentSign → Nat) (comment_sign : CommentSign)
    (later : List CommentSign) :
    ((later.foldl (fun c sg => (c.get_regex hashFn sg).2.1)
        ((cache.get_regex hashFn comment_sign).2.1)).get_regex hashFn comment_sign)
      = ((cache.get_regex hashFn comment_sign).1,
          later.foldl (fun c sg => (c.get_regex hashFn sg).2.1)
            ((cache.get_regex hashFn comment_sign).2.1),
          false) := by
  have hl := foldl_get_regex_preserves_lookup hashFn later
    ((cache.get_regex hashFn comment_sign).2.1) (hashFn comment_sign)
    ((cache.get_regex hashFn comment_sign).1)
    (get_regex_caches cache hashFn comment_sign)
  exact get_regex_hit _ hashFn comment_sign _ hl

/-!  ### The dispatcher (`check_repo_copyright`, `runner.rs`)  -/

/-- `Error` from `error.rs`. -/
inductive Error : Type
  | FilesChanged
  | IoFail (phase : Str)
  | Utf8Fail
  | GitCommand (msg : Str)
  | ParseConfig
  | UnknownCommentSign (filename : Str)
deriving DecidableEq, Repr

/-- Model of the dispatch/aggregation loop of `check_repo_copyright`
(`runner.rs`), with worker-thread scheduling made explicit.  After sending
each filename the dispatcher drains whatever the workers have put on the
bounded error channel so far (`while let Ok(err) = errors_rx.try_recv()`);
`polls` lists that batch for each filename sent, so the collected `errors`
vector is their concatenation.  `residual` is whatever errors workers
deliver after the final poll: it is still sitting in the error channel when
the dispatcher drops the filename sender and joins the workers, and the
source never reads the error channel after the send loop, so the result is
computed from the collected errors only.  If any were collected, all are
reported and the first is returned as the failure; otherwise the run
succeeds. -/
def check_repo_copyright (files : List Str) (polls : List (List Error))
    (residual : List Error) : Except Error Unit :=
  let errors := (files.zip polls).flatMap (fun fp => fp.2)
  match errors with
  | [] => Except.ok ()
  | e :: _ => Except.error e

/-- C2 (code bug): a single tracked file fails (here: no comment sign is
configured for it), but the worker's error reaches the error channel only
after the dispatcher's last `try_recv` poll — a schedule the bounded
channels always allow, since the dispatcher polls immediately after each
send and never again afterwards.  The error is lost and the run reports
success; under the schedule where the same error arrives in time, the same
run fails.  The `Done` phase therefore does not drain remaining errors. -/
theorem check_repo_copyright_loses_residual_errors :
    check_repo_copyright [strL "main.xyz"] [[]]
        [Error.UnknownCommentSign (strL "main.xyz")] = Except.ok ()
    ∧ check_repo_copyright [strL "main.xyz"]
        [[Error.UnknownCommentSign (strL "main.xyz")]] []
      = Except.error (Error.UnknownCommentSign (strL "main.xyz")) :=
  ⟨rfl, rfl⟩

/-!  ### Escaping produces literal-matching patterns (C8)  -/

/-- Characters on which `escape_for_regex` composed with the pattern
language is well behaved: everything except the pattern metacharacters the
escaper does not handle (`\ [ ] | + ?`).  In particular all eight escaped
special characters are included. -/
def benignChar (c : Char) : Bool :=
  !(c ∈ (['\\', '[', ']', '|', '+', '?'] : List Char))

/-- All characters of a string benign. -/
def benignStr (s : Str) : Bool := s.all benignChar

/-- Both delimiter strings of a comment sign benign. -/
def signBenign : CommentSign → Bool
  | CommentSign.LeftOnly left => benignStr left
  | CommentSign.Enclosing left right => benignStr left && benignStr right

/-- The documented copyright-line literal format: delimiter(s) separated
from the text by a single space on each side. -/
def single_space_line (comment_sign : CommentSign) (text : Str) : Str :=
  match comment_sign with
  | CommentSign.LeftOnly left => left ++ strL " " ++ text
  | CommentSign.Enclosing left right => left ++ strL " " ++ text ++ strL " " ++ right

theorem escapeChar_escapable (c : Char) (h : isEscapable c = true) :
    escapeChar c = ['\\', c] := by
  have h' := of_decide_eq_true h
  simp only [List.mem_cons, List.not_mem_nil, or_false] at h'
  rcases h' with rfl | rfl | rfl | rfl | rfl | rfl | rfl | rfl <;> rfl

theorem escapeChar_plain (c : Char) (h : isEscapable c = false) :
    escapeChar c = [c] := by
  have h' := of_decide_eq_false h
  simp only [List.mem_cons, List.not_mem_nil, or_false, not_or] at h'
  obtain ⟨n1, n2, n3, n4, n5, n6, n7, n8⟩ := h'
  simp [escapeChar, n1, n2, n3, n4, n5, n6, n7, n8]

theorem tokenize_backslash (e : Char) (rest : Str)
    (he : isEscapable e = true) (hd : e ≠ 'd') :
    tokenize ('\\' :: e :: rest) = (tokenize rest).map (Tok.lit e :: ·) := by
  simp [tokenize, tokenizeSt, hd, he]

theorem tokenize_plain (c : Char) (rest : Str)
    (h1 : c ≠ '\\') (h2 : c ≠ '\x7b') (h3 : c ≠ '(') (h4 : c ≠ ')')
    (h5 : isMeta c = false) :
    tokenize (c :: rest) = (tokenize rest).map (Tok.lit c :: ·) := by
  simp [tokenize, tokenizeSt, h1, h2, h3, h4, h5]

theorem benign_plain_facts (c : Char) (hb : benignChar c = true)
    (he : isEscapable c = false) :
    c ≠ '\\' ∧ c ≠ '\x7b' ∧ c ≠ '(' ∧ c ≠ ')' ∧ isMeta c = false := by
  simp only [benignChar, Bool.not_eq_true', decide_eq_false_iff_not, List.mem_cons,
    List.not_mem_nil, or_false, not_or] at hb
  have he' := of_decide_eq_false he
  simp only [List.mem_cons, List.not_mem_nil, or_false, not_or] at he'
  obtain ⟨e1, e2, e3, e4, e5, e6, e7, e8⟩ := he'
  obtain ⟨b1, b2, b3, b4, b5, b6⟩ := hb
  refine ⟨b1, e5, e3, e4, ?_⟩
  simp [isMeta, b1, b2, b3, b4, b5, b6, e1, e2, e3, e4, e5, e6, e7, e8]

theorem escapable_not_d (c : Char) (h : isEscapable c = true) : c ≠ 'd' := by
  intro hcd
  rw [hcd] at h
  exact absurd h (by decide)

theorem tokenize_escape (s : Str) (hs : ∀ c ∈ s, benignChar c = true) :
    ∀ rest : Str, tokenize (escape_for_regex s ++ rest)
      = (tokenize rest).map (fun ts => s.map Tok.lit ++ ts) := by
  induction s with
  | nil =>
    intro rest
    simp only [escape_for_regex, List.flatMap_nil, List.nil_append, List.map_nil]
    cases tokenize rest <;> simp
  | cons c s' ih =>
    intro rest
    have hc : benignChar c = true := hs c (List.mem_cons_self c s')
    have hs' : ∀ x ∈ s', benignChar x = true := fun x hx => hs x (List.mem_cons_of_mem c hx)
    have hesc : escape_for_regex (c :: s') = escapeChar c ++ escape_for_regex s' := by
      simp [escape_for_regex]
    cases he : isEscapable c with
    | true =>
      rw [hesc, escapeChar_escapable c he]
      simp only [List.cons_append, List.nil_append]
      rw [tokenize_backslash c _ he (escapable_not_d c he), ih hs' rest]
      cases tokenize rest <;> simp
    | false =>
      rw [hesc, escapeChar_plain c he]
      obtain ⟨h1, h2, h3, h4, h5⟩ := benign_plain_facts c hc he
      simp only [List.cons_append, List.nil_append]
      rw [tokenize_plain c _ h1 h2 h3 h4 h5, ih hs' rest]
      cases tokenize rest <;> simp
theorem parseLoop_lits : ∀ (s : Str) (ts : List Tok) (acc : List RE) (stk : List (List RE)),
    parseLoop (s.map Tok.lit ++ ts) (acc :: stk)
      = parseLoop ts ((s.reverse.map RE.lit ++ acc) :: stk) := by
  intro s
  induction s with
  | nil => intro ts acc stk; simp
  | cons c s' ih =>
    intro ts acc stk
    simp only [List.map_cons, List.cons_append]
    rw [show parseLoop (Tok.lit c :: (s'.map Tok.lit ++ ts)) (acc :: stk)
        = parseLoop (s'.map Tok.lit ++ ts) ((RE.lit c :: acc) :: stk) from rfl]
    rw [ih ts (RE.lit c :: acc) stk]
    simp [List.append_assoc]

theorem parseLoop_lits_done (s : Str) :
    parseLoop (s.map Tok.lit) [[]] = some (seqList (s.map RE.lit)) := by
  have h := parseLoop_lits s [] [] []
  rw [List.append_nil] at h
  rw [h, List.append_nil]
  show some (seqList (List.map RE.lit s.reverse).reverse) = some (seqList (List.map RE.lit s))
  congr 2
  simp

theorem reMatch_seqList_lits : ∀ (s t : Str),
    reMatch (seqList (s.map RE.lit)) t = true ↔ t = s := by
  intro s
  induction s with
  | nil =>
    intro t
    show t.isEmpty = true ↔ t = []
    cases t <;> simp
  | cons c s' ih =>
    intro t
    show (List.range (t.length + 1)).any
        (fun i => reMatch (RE.lit c) (t.take i) && reMatch (seqList (s'.map RE.lit)) (t.drop i))
        = true ↔ t = c :: s'
    rw [List.any_eq_true]
    constructor
    · rintro ⟨i, _, hi⟩
      rw [Bool.and_eq_true] at hi
      obtain ⟨h1, h2⟩ := hi
      have htake : t.take i = [c] := of_decide_eq_true h1
      cases t with
      | nil => simp at htake
      | cons x t' =>
        cases i with
        | zero => simp at htake
        | succ j =>
          rw [List.take_succ_cons] at htake
          obtain ⟨rfl, hj⟩ := List.cons.inj htake
          have hdrop : (x :: t').drop (j + 1) = t' := by
            rw [List.drop_succ_cons]
            rcases List.take_eq_nil_iff.1 hj with rfl | rfl
            · simp
            · simp
          rw [hdrop] at h2
          rw [ih t' |>.1 h2]
    · rintro rfl
      refine ⟨1, ?_, ?_⟩
      · simp
      · rw [Bool.and_eq_true]
        constructor
        · simp [reMatch]
        · simpa using (ih s').2 rfl
theorem reMatch_lits_decide (s t : Str) :
    reMatch (seqList (s.map RE.lit)) t = decide (t = s) := by
  cases h : decide (t = s) with
  | false =>
    cases hb : reMatch (seqList (s.map RE.lit)) t with
    | false => rfl
    | true => exact absurd ((reMatch_seqList_lits s t).1 hb) (of_decide_eq_false h)
  | true => exact (reMatch_seqList_lits s t).2 (of_decide_eq_true h)

theorem benignStr_forall (s : Str) (h : benignStr s = true) :
    ∀ c ∈ s, benignChar c = true := by
  intro c hc
  exact List.all_eq_true.1 h c hc

theorem tokenize_nil_eq : tokenize [] = some [] := rfl

theorem space_plain_facts :
    (' ' : Char) ≠ '\\' ∧ (' ' : Char) ≠ '\x7b' ∧ (' ' : Char) ≠ '('
      ∧ (' ' : Char) ≠ ')' ∧ isMeta ' ' = false := by
  refine ⟨by decide, by decide, by decide, by decide, by decide⟩

theorem tokenize_escape_space (a : Str) (ha : benignStr a = true) (rest : Str) :
    tokenize (escape_for_regex a ++ ' ' :: rest)
      = (tokenize rest).map (fun ts => a.map Tok.lit ++ Tok.lit ' ' :: ts) := by
  obtain ⟨s1, s2, s3, s4, s5⟩ := space_plain_facts
  have hsp := tokenize_plain ' ' rest s1 s2 s3 s4 s5
  have ha' := tokenize_escape a (benignStr_forall a ha) (' ' :: rest)
  rw [hsp] at ha'
  rw [ha']
  cases tokenize rest <;> simp

theorem tokenize_escape_done (a : Str) (ha : benignStr a = true) :
    tokenize (escape_for_regex a) = some (a.map Tok.lit) := by
  have h := tokenize_escape a (benignStr_forall a ha) []
  rw [List.append_nil, tokenize_nil_eq] at h
  rw [h]
  simp

theorem compileRegex_concat (body : Str) :
    compileRegex ('^' :: (body ++ ['$']))
      = (tokenize body).bind (parseLoop · [[]]) := by
  show (if (body ++ ['$']).getLast? = some '$' then
      (tokenize (body ++ ['$']).dropLast).bind (parseLoop · [[]]) else none) = _
  rw [List.getLast?_concat, if_pos rfl, List.dropLast_concat]

theorem compileRegex_no_placeholder (comment_sign : CommentSign) (template : Str)
    (hsign : signBenign comment_sign = true) (htmpl : benignStr template = true)
    (hno : replaceAll '\\' (strL "\x7byears\\\x7d") YEARS_REGEX (escape_for_regex template)
      = escape_for_regex template) :
    compileRegex (generate_copyright_regex template comment_sign)
      = some (seqList ((single_space_line comment_sign template).map RE.lit)) := by
  cases comment_sign with
  | LeftOnly left =>
    have hl : benignStr left = true := hsign
    show compileRegex (strL "^" ++ escape_for_regex left ++ strL " "
        ++ replaceAll '\\' (strL "\x7byears\\\x7d") YEARS_REGEX (escape_for_regex template)
        ++ strL "$") = _
    rw [hno]
    rw [show strL "^" ++ escape_for_regex left ++ strL " "
          ++ escape_for_regex template ++ strL "$"
        = '^' :: ((escape_for_regex left ++ ' ' :: escape_for_regex template) ++ ['$']) by
      show ['^'] ++ escape_for_regex left ++ [' '] ++ escape_for_regex template ++ ['$'] = _
      simp [List.append_assoc]]
    rw [compileRegex_concat, tokenize_escape_space left hl _,
      tokenize_escape_done template htmpl]
    show parseLoop (left.map Tok.lit ++ Tok.lit ' ' :: template.map Tok.lit) [[]] = _
    rw [show left.map Tok.lit ++ Tok.lit ' ' :: template.map Tok.lit
        = (left ++ ' ' :: template).map Tok.lit by simp]
    rw [parseLoop_lits_done]
    show _ = some (seqList ((left ++ strL " " ++ template).map RE.lit))
    rw [show left ++ strL " " ++ template = left ++ ' ' :: template by
      show left ++ [' '] ++ template = _
      simp]
  | Enclosing left right =>
    have hlr : benignStr left = true ∧ benignStr right = true := by
      have h := hsign
      simp only [signBenign, Bool.and_eq_true] at h
      exact h
    have hl : benignStr left = true := hlr.1
    have hr : benignStr right = true := hlr.2
    show compileRegex (strL "^" ++ escape_for_regex left ++ strL " "
        ++ replaceAll '\\' (strL "\x7byears\\\x7d") YEARS_REGEX (escape_for_regex template)
        ++ strL " " ++ escape_for_regex right ++ strL "$") = _
    rw [hno]
    rw [show strL "^" ++ escape_for_regex left ++ strL " "
          ++ escape_for_regex template ++ strL " " ++ escape_for_regex right ++ strL "$"
        = '^' :: ((escape_for_regex left
            ++ ' ' :: (escape_for_regex template ++ ' ' :: escape_for_regex right)) ++ ['$']) by
      show ['^'] ++ escape_for_regex left ++ [' '] ++ escape_for_regex template ++ [' ']
          ++ escape_for_regex right ++ ['$'] = _
      simp [List.append_assoc]]
    rw [compileRegex_concat, tokenize_escape_space left hl _,
      tokenize_escape_space template htmpl _, tokenize_escape_done right hr]
    show parseLoop (left.map Tok.lit
        ++ Tok.lit ' ' :: (template.map Tok.lit ++ Tok.lit ' ' :: right.map Tok.lit)) [[]] = _
    rw [show left.map Tok.lit
          ++ Tok.lit ' ' :: (template.map Tok.lit ++ Tok.lit ' ' :: right.map Tok.lit)
        = (left ++ ' ' :: (template ++ ' ' :: right)).map Tok.lit by simp]
    rw [parseLoop_lits_done]
    show _ = some (seqList ((left ++ strL " " ++ template ++ strL " " ++ right).map RE.lit))
    rw [show left ++ strL " " ++ template ++ strL " " ++ right
        = left ++ ' ' :: (template ++ ' ' :: right) by
      show left ++ [' '] ++ template ++ [' '] ++ right = _
      simp [List.append_assoc]]
/-- Inductive language semantics of the regex fragment. -/
inductive Lang : RE → Str → Prop
  | eps : Lang RE.eps []
  | lit (c : Char) : Lang (RE.lit c) [c]
  | digit (c : Char) : c.isDigit = true → Lang RE.digit [c]
  | seq {a b : RE} {s t : Str} : Lang a s → Lang b t → Lang (RE.seq a b) (s ++ t)
  | altL {a b : RE} {s : Str} : Lang a s → Lang (RE.alt a b) s
  | altR {a b : RE} {s : Str} : Lang b s → Lang (RE.alt a b) s

theorem reMatch_iff_Lang : ∀ (r : RE) (s : Str), reMatch r s = true ↔ Lang r s := by
  intro r
  induction r with
  | eps =>
    intro s
    show s.isEmpty = true ↔ _
    constructor
    · intro h
      rw [List.isEmpty_iff.1 h]
      exact Lang.eps
    · rintro ⟨⟩
      rfl
  | lit c =>
    intro s
    show decide (s = [c]) = true ↔ _
    rw [decide_eq_true_eq]
    constructor
    · rintro rfl; exact Lang.lit c
    · rintro ⟨⟩; rfl
  | digit =>
    intro s
    constructor
    · intro h
      match s, h with
      | [c], h => exact Lang.digit c h
    · intro h
      cases h with
      | digit c hc => exact hc
  | seq a b iha ihb =>
    intro s
    show (List.range (s.length + 1)).any
        (fun i => reMatch a (s.take i) && reMatch b (s.drop i)) = true ↔ _
    rw [List.any_eq_true]
    constructor
    · rintro ⟨i, _, hi⟩
      rw [Bool.and_eq_true] at hi
      have h := Lang.seq ((iha _).1 hi.1) ((ihb _).1 hi.2)
      rwa [List.take_append_drop] at h
    · intro h
      cases h with
      | @seq _ _ u v hu hv =>
        refine ⟨u.length, ?_, ?_⟩
        · rw [List.mem_range, List.length_append]
          omega
        · rw [Bool.and_eq_true, List.take_left, List.drop_left]
          exact ⟨(iha u).2 hu, (ihb v).2 hv⟩
  | alt a b iha ihb =>
    intro s
    show (reMatch a s || reMatch b s) = true ↔ _
    rw [Bool.or_eq_true]
    constructor
    · rintro (h | h)
      · exact Lang.altL ((iha s).1 h)
      · exact Lang.altR ((ihb s).1 h)
    · intro h
      cases h with
      | altL h => exact Or.inl ((iha s).2 h)
      | altR h => exact Or.inr ((ihb s).2 h)
theorem map_cons_comp (tok : Tok) (ts' : List Tok) (R : Option (List Tok)) :
    (R.map (fun l => ts' ++ l)).map (fun l => tok :: l)
      = R.map (fun l => tok :: ts' ++ l) := by
  cases R <;> simp

theorem tokenizeSt_append : ∀ (A : Str) (st : LexState) (ts : List Tok),
    tokenizeSt st A = some ts →
    ∀ rest : Str, tokenizeSt st (A ++ rest) = (tokenizeSt LexState.idle rest).map (ts ++ ·) := by
  intro A
  induction A with
  | nil =>
    intro st ts h rest
    cases st with
    | idle =>
      obtain rfl : ([] : List Tok) = ts := Option.some.inj h
      rw [List.nil_append]
      cases tokenizeSt LexState.idle rest <;> simp
    | esc => simp [tokenizeSt] at h
    | rep0 => simp [tokenizeSt] at h
    | rep1 n => simp [tokenizeSt] at h
    | rep2 n => simp [tokenizeSt] at h
    | rep3 n m => simp [tokenizeSt] at h
  | cons c A' ih =>
    intro st ts h rest
    rw [List.cons_append]
    cases st with
    | idle =>
      by_cases h1 : c = '\\'
      · have step : ∀ X, tokenizeSt LexState.idle (c :: X) = tokenizeSt LexState.esc X :=
          fun X => by simp [tokenizeSt, h1]
        rw [step] at h
        rw [step]
        exact ih LexState.esc ts h rest
      · by_cases h2 : c = '\x7b'
        · have step : ∀ X, tokenizeSt LexState.idle (c :: X) = tokenizeSt LexState.rep0 X :=
            fun X => by simp [tokenizeSt, h1, h2]
          rw [step] at h
          rw [step]
          exact ih LexState.rep0 ts h rest
        · by_cases h3 : c = '('
          · have step : ∀ X, tokenizeSt LexState.idle (c :: X)
                = (tokenizeSt LexState.idle X).map (Tok.lparen :: ·) :=
              fun X => by simp [tokenizeSt, h1, h2, h3]
            rw [step] at h
            rw [step]
            rw [Option.map_eq_some'] at h
            obtain ⟨ts', h', rfl⟩ := h
            rw [ih LexState.idle ts' h' rest]
            exact map_cons_comp Tok.lparen ts' _
          · by_cases h4 : c = ')'
            · have step : ∀ X, tokenizeSt LexState.idle (c :: X)
                  = (tokenizeSt LexState.idle X).map (Tok.rparen :: ·) :=
                fun X => by simp [tokenizeSt, h1, h2, h3, h4]
              rw [step] at h
              rw [step]
              rw [Option.map_eq_some'] at h
              obtain ⟨ts', h', rfl⟩ := h
              rw [ih LexState.idle ts' h' rest]
              exact map_cons_comp Tok.rparen ts' _
            · by_cases h5 : isMeta c
              · have step : ∀ X, tokenizeSt LexState.idle (c :: X) = none :=
                  fun X => by simp [tokenizeSt, h1, h2, h3, h4, h5]
                rw [step] at h
                exact Option.noConfusion h
              · have step : ∀ X, tokenizeSt LexState.idle (c :: X)
                    = (tokenizeSt LexState.idle X).map (Tok.lit c :: ·) :=
                  fun X => by simp [tokenizeSt, h1, h2, h3, h4, h5]
                rw [step] at h
                rw [step]
                rw [Option.map_eq_some'] at h
                obtain ⟨ts', h', rfl⟩ := h
                rw [ih LexState.idle ts' h' rest]
                exact map_cons_comp (Tok.lit c) ts' _
    | esc =>
      by_cases h1 : c = 'd'
      · have step : ∀ X, tokenizeSt LexState.esc (c :: X)
            = (tokenizeSt LexState.idle X).map (Tok.digit :: ·) :=
          fun X => by simp [tokenizeSt, h1]
        rw [step] at h
        rw [step]
        rw [Option.map_eq_some'] at h
        obtain ⟨ts', h', rfl⟩ := h
        rw [ih LexState.idle ts' h' rest]
        exact map_cons_comp Tok.digit ts' _
      · by_cases h2 : isEscapable c
        · have step : ∀ X, tokenizeSt LexState.esc (c :: X)
              = (tokenizeSt LexState.idle X).map (Tok.lit c :: ·) :=
            fun X => by simp [tokenizeSt, h1, h2]
          rw [step] at h
          rw [step]
          rw [Option.map_eq_some'] at h
          obtain ⟨ts', h', rfl⟩ := h
          rw [ih LexState.idle ts' h' rest]
          exact map_cons_comp (Tok.lit c) ts' _
        · have step : ∀ X, tokenizeSt LexState.esc (c :: X) = none :=
            fun X => by simp [tokenizeSt, h1, h2]
          rw [step] at h
          exact Option.noConfusion h
    | rep0 =>
      cases hd : charDigit c with
      | some n =>
        have step : ∀ X, tokenizeSt LexState.rep0 (c :: X) = tokenizeSt (LexState.rep1 n) X :=
          fun X => by simp [tokenizeSt, hd]
        rw [step] at h
        rw [step]
        exact ih (LexState.rep1 n) ts h rest
      | none =>
        have step : ∀ X, tokenizeSt LexState.rep0 (c :: X) = none :=
          fun X => by simp [tokenizeSt, hd]
        rw [step] at h
        exact Option.noConfusion h
    | rep1 n =>
      by_cases h1 : c = '\x7d'
      · have step : ∀ X, tokenizeSt (LexState.rep1 n) (c :: X)
            = (tokenizeSt LexState.idle X).map (Tok.rep n n :: ·) :=
          fun X => by simp [tokenizeSt, h1]
        rw [step] at h
        rw [step]
        rw [Option.map_eq_some'] at h
        obtain ⟨ts', h', rfl⟩ := h
        rw [ih LexState.idle ts' h' rest]
        exact map_cons_comp (Tok.rep n n) ts' _
      · by_cases h2 : c = ','
        · have step : ∀ X, tokenizeSt (LexState.rep1 n) (c :: X)
              = tokenizeSt (LexState.rep2 n) X :=
            fun X => by simp [tokenizeSt, h1, h2]
          rw [step] at h
          rw [step]
          exact ih (LexState.rep2 n) ts h rest
        · have step : ∀ X, tokenizeSt (LexState.rep1 n) (c :: X) = none :=
            fun X => by simp [tokenizeSt, h1, h2]
          rw [step] at h
          exact Option.noConfusion h
    | rep2 n =>
      cases hd : charDigit c with
      | some m =>
        have step : ∀ X, tokenizeSt (LexState.rep2 n) (c :: X)
            = tokenizeSt (LexState.rep3 n m) X :=
          fun X => by simp [tokenizeSt, hd]
        rw [step] at h
        rw [step]
        exact ih (LexState.rep3 n m) ts h rest
      | none =>
        have step : ∀ X, tokenizeSt (LexState.rep2 n) (c :: X) = none :=
          fun X => by simp [tokenizeSt, hd]
        rw [step] at h
        exact Option.noConfusion h
    | rep3 n m =>
      by_cases h1 : c = '\x7d'
      · have step : ∀ X, tokenizeSt (LexState.rep3 n m) (c :: X)
            = (tokenizeSt LexState.idle X).map (Tok.rep n m :: ·) :=
          fun X => by simp [tokenizeSt, h1]
        rw [step] at h
        rw [step]
        rw [Option.map_eq_some'] at h
        obtain ⟨ts', h', rfl⟩ := h
        rw [ih LexState.idle ts' h' rest]
        exact map_cons_comp (Tok.rep n m) ts' _
      · have step : ∀ X, tokenizeSt (LexState.rep3 n m) (c :: X) = none :=
          fun X => by simp [tokenizeSt, h1]
        rw [step] at h
        exact Option.noConfusion h

/-- Tokenization of a successfully tokenized prefix composes over
concatenation. -/
theorem tokenize_append (A : Str) (ts : List Tok) (h : tokenize A = some ts)
    (rest : Str) : tokenize (A ++ rest) = (tokenize rest).map (ts ++ ·) :=
  tokenizeSt_append A LexState.idle ts h rest
/-- The token list of `YEARS_REGEX`. -/
def yearsToks : List Tok :=
  [Tok.lparen, Tok.digit, Tok.rep 4 4, Tok.lparen, Tok.lit '-', Tok.digit,
    Tok.rep 4 4, Tok.rparen, Tok.rep 0 1, Tok.rparen]

theorem tokenize_YEARS : tokenize YEARS_REGEX = some yearsToks := by decide

/-- The abstract syntax `YEARS_REGEX` parses to: four digits, optionally
followed by a hyphen and four more digits. -/
def yearsRE : RE :=
  seqList [repRange 4 4 RE.digit,
    repRange 0 1 (seqList [RE.lit '-', repRange 4 4 RE.digit])]

theorem parseLoop_years (ts : List Tok) (acc : List RE) (stk : List (List RE)) :
    parseLoop (yearsToks ++ ts) (acc :: stk) = parseLoop ts ((yearsRE :: acc) :: stk) := rfl
/-- A 4-digit year or a hyphenated pair of 4-digit years — the language of
the `(\d{4}(-\d{4}){0,1})` capture. -/
def YearOrRangeP (y : Str) : Prop :=
  (y.length = 4 ∧ ∀ c ∈ y, c.isDigit = true)
  ∨ ∃ a b, y = a ++ '-' :: b ∧ a.length = 4 ∧ b.length = 4
      ∧ (∀ c ∈ a, c.isDigit = true) ∧ (∀ c ∈ b, c.isDigit = true)

theorem Lang_seqList_nil (s : Str) : Lang (seqList []) s ↔ s = [] := by
  show Lang RE.eps s ↔ s = []
  constructor
  · rintro ⟨⟩; rfl
  · rintro rfl; exact Lang.eps

theorem Lang_seqList_cons (r : RE) (rs : List RE) (s : Str) :
    Lang (seqList (r :: rs)) s ↔ ∃ u v, s = u ++ v ∧ Lang r u ∧ Lang (seqList rs) v := by
  show Lang (RE.seq r (seqList rs)) s ↔ _
  constructor
  · intro h
    cases h with
    | @seq _ _ u v hu hv => exact ⟨u, v, rfl, hu, hv⟩
  · rintro ⟨u, v, rfl, hu, hv⟩
    exact Lang.seq hu hv

theorem Lang_seqList_lits (cs s : Str) :
    Lang (seqList (cs.map RE.lit)) s ↔ s = cs := by
  rw [← reMatch_iff_Lang, reMatch_lits_decide, decide_eq_true_eq]

theorem Lang_seqList_append (as bs : List RE) :
    ∀ s : Str, Lang (seqList (as ++ bs)) s
      ↔ ∃ u v, s = u ++ v ∧ Lang (seqList as) u ∧ Lang (seqList bs) v := by
  induction as with
  | nil =>
    intro s
    rw [List.nil_append]
    constructor
    · intro h
      exact ⟨[], s, rfl, (Lang_seqList_nil []).2 rfl, h⟩
    · rintro ⟨u, v, rfl, hu, hv⟩
      rw [(Lang_seqList_nil u).1 hu, List.nil_append]
      exact hv
  | cons r as' ih =>
    intro s
    rw [List.cons_append, Lang_seqList_cons]
    constructor
    · rintro ⟨u, v, rfl, hu, hv⟩
      obtain ⟨v1, v2, rfl, hv1, hv2⟩ := (ih v).1 hv
      exact ⟨u ++ v1, v2, by rw [List.append_assoc],
        (Lang_seqList_cons r as' (u ++ v1)).2 ⟨u, v1, rfl, hu, hv1⟩, hv2⟩
    · rintro ⟨u, v, rfl, hu, hv⟩
      obtain ⟨u1, u2, rfl, hu1, hu2⟩ := (Lang_seqList_cons r as' u).1 hu
      exact ⟨u1, u2 ++ v, by rw [List.append_assoc], hu1, (ih (u2 ++ v)).2 ⟨u2, v, rfl, hu2, hv⟩⟩

theorem Lang_seq_eps (a : RE) (s : Str) : Lang (RE.seq a RE.eps) s ↔ Lang a s := by
  constructor
  · intro h
    cases h with
    | @seq _ _ u v hu hv =>
      cases hv
      rwa [List.append_nil]
  · intro h
    have := Lang.seq h Lang.eps
    rwa [List.append_nil] at this
theorem Lang_rePow_digit : ∀ (n : Nat) (s : Str),
    Lang (rePow n RE.digit) s ↔ s.length = n ∧ ∀ c ∈ s, c.isDigit = true := by
  intro n
  induction n with
  | zero =>
    intro s
    show Lang RE.eps s ↔ _
    constructor
    · rintro ⟨⟩
      exact ⟨rfl, by simp⟩
    · rintro ⟨h, _⟩
      rw [List.length_eq_zero.1 h]
      exact Lang.eps
  | succ m ih =>
    intro s
    show Lang (RE.seq RE.digit (rePow m RE.digit)) s ↔ _
    constructor
    · intro h
      cases h with
      | @seq _ _ u v hu hv =>
        cases hu with
        | digit c hc =>
          obtain ⟨hlen, hdig⟩ := (ih v).1 hv
          refine ⟨by simp [hlen], ?_⟩
          intro x hx
          rcases List.mem_cons.1 hx with rfl | hx
          · exact hc
          · exact hdig x hx
    · rintro ⟨hlen, hdig⟩
      cases s with
      | nil => simp at hlen
      | cons c s' =>
        have : Lang (RE.seq RE.digit (rePow m RE.digit)) ([c] ++ s') := by
          refine Lang.seq (Lang.digit c (hdig c (List.mem_cons_self c s'))) ((ih s').2 ⟨?_, ?_⟩)
          · simpa using hlen
          · intro x hx
            exact hdig x (List.mem_cons_of_mem c hx)
        simpa using this

theorem Lang_rep44_digit (s : Str) :
    Lang (repRange 4 4 RE.digit) s ↔ s.length = 4 ∧ ∀ c ∈ s, c.isDigit = true := by
  show Lang (RE.seq (rePow 4 RE.digit) (reOptPow 0 RE.digit)) s ↔ _
  rw [show reOptPow 0 RE.digit = RE.eps from rfl, Lang_seq_eps]
  exact Lang_rePow_digit 4 s

theorem Lang_G2 (s : Str) :
    Lang (seqList [RE.lit '-', repRange 4 4 RE.digit]) s
      ↔ ∃ b, s = '-' :: b ∧ b.length = 4 ∧ ∀ c ∈ b, c.isDigit = true := by
  rw [Lang_seqList_cons]
  constructor
  · rintro ⟨u, v, rfl, hu, hv⟩
    cases hu
    rw [show seqList [repRange 4 4 RE.digit] = RE.seq (repRange 4 4 RE.digit) RE.eps from rfl,
      Lang_seq_eps] at hv
    obtain ⟨hlen, hdig⟩ := (Lang_rep44_digit v).1 hv
    exact ⟨v, rfl, hlen, hdig⟩
  · rintro ⟨b, rfl, hlen, hdig⟩
    refine ⟨['-'], b, rfl, Lang.lit '-', ?_⟩
    rw [show seqList [repRange 4 4 RE.digit] = RE.seq (repRange 4 4 RE.digit) RE.eps from rfl,
      Lang_seq_eps]
    exact (Lang_rep44_digit b).2 ⟨hlen, hdig⟩

theorem Lang_yearsRE (y : Str) : Lang yearsRE y ↔ YearOrRangeP y := by
  show Lang (RE.seq (repRange 4 4 RE.digit)
    (RE.seq (repRange 0 1 (seqList [RE.lit '-', repRange 4 4 RE.digit])) RE.eps)) y ↔ _
  rw [show (RE.seq (repRange 0 1 (seqList [RE.lit '-', repRange 4 4 RE.digit])) RE.eps)
      = seqList [repRange 0 1 (seqList [RE.lit '-', repRange 4 4 RE.digit])] from rfl]
  constructor
  · intro h
    cases h with
    | @seq _ _ u v hu hv =>
      obtain ⟨hlen, hdig⟩ := (Lang_rep44_digit u).1 hu
      rw [show seqList [repRange 0 1 (seqList [RE.lit '-', repRange 4 4 RE.digit])]
          = RE.seq (repRange 0 1 (seqList [RE.lit '-', repRange 4 4 RE.digit])) RE.eps from rfl,
        Lang_seq_eps] at hv
      show YearOrRangeP (u ++ v)
      cases hv with
      | @seq _ _ v1 v2 hv1 hv2 =>
        cases hv1
        rw [List.nil_append]
        cases hv2 with
        | altL h0 =>
          cases h0
          rw [List.append_nil]
          exact Or.inl ⟨hlen, hdig⟩
        | altR h1 =>
          cases h1 with
          | @seq _ _ w1 w2 hw1 hw2 =>
            cases hw2
            rw [List.append_nil]
            obtain ⟨b, rfl, hbl, hbd⟩ := (Lang_G2 w1).1 hw1
            exact Or.inr ⟨u, b, rfl, hlen, hbl, hdig, hbd⟩
  · intro h
    rcases h with ⟨hlen, hdig⟩ | ⟨a, b, rfl, hal, hbl, had, hbd⟩
    · have h1 : Lang (repRange 4 4 RE.digit) y := (Lang_rep44_digit y).2 ⟨hlen, hdig⟩
      have h2 : Lang (seqList [repRange 0 1 (seqList [RE.lit '-', repRange 4 4 RE.digit])]) [] := by
        show Lang (RE.seq (RE.seq (rePow 0 _) (reOptPow 1 _)) RE.eps) []
        have : Lang (RE.seq (rePow 0 (seqList [RE.lit '-', repRange 4 4 RE.digit]))
            (reOptPow 1 (seqList [RE.lit '-', repRange 4 4 RE.digit]))) ([] ++ []) :=
          Lang.seq Lang.eps (Lang.altL Lang.eps)
        simpa using Lang.seq this Lang.eps
      have := Lang.seq h1 h2
      simpa using this
    · have h1 : Lang (repRange 4 4 RE.digit) a := (Lang_rep44_digit a).2 ⟨hal, had⟩
      have hg2 : Lang (seqList [RE.lit '-', repRange 4 4 RE.digit]) ('-' :: b) :=
        (Lang_G2 ('-' :: b)).2 ⟨b, rfl, hbl, hbd⟩
      have h2 : Lang (seqList [repRange 0 1 (seqList [RE.lit '-', repRange 4 4 RE.digit])])
          ('-' :: b) := by
        show Lang (RE.seq (RE.seq (rePow 0 _) (reOptPow 1 _)) RE.eps) ('-' :: b)
        have hopt : Lang (reOptPow 1 (seqList [RE.lit '-', repRange 4 4 RE.digit]))
            ('-' :: b) := by
          show Lang (RE.alt RE.eps (RE.seq _ (reOptPow 0 _))) ('-' :: b)
          refine Lang.altR ?_
          have := Lang.seq hg2 (Lang.eps)
          simpa using this
        have hin : Lang (RE.seq (rePow 0 (seqList [RE.lit '-', repRange 4 4 RE.digit]))
            (reOptPow 1 (seqList [RE.lit '-', repRange 4 4 RE.digit]))) ([] ++ '-' :: b) :=
          Lang.seq Lang.eps hopt
        simpa using Lang.seq hin Lang.eps
      have := Lang.seq h1 h2
      exact this
/-- The abstract syntax of a generated pattern whose template contains one
`{years}` placeholder: literal text, the year capture, literal text. -/
def placeholderRE (A B : Str) : RE :=
  seqList (A.map RE.lit ++ yearsRE :: B.map RE.lit)

theorem Lang_placeholderRE (A B s : Str) :
    Lang (placeholderRE A B) s ↔ ∃ y, YearOrRangeP y ∧ s = A ++ y ++ B := by
  unfold placeholderRE
  rw [Lang_seqList_append]
  constructor
  · rintro ⟨u, v, rfl, hu, hv⟩
    rw [Lang_seqList_lits] at hu
    subst hu
    obtain ⟨y, w, rfl, hy, hw⟩ := (Lang_seqList_cons _ _ v).1 hv
    rw [Lang_seqList_lits] at hw
    subst hw
    exact ⟨y, (Lang_yearsRE y).1 hy, by rw [List.append_assoc]⟩
  · rintro ⟨y, hy, rfl⟩
    refine ⟨A, y ++ B, by rw [List.append_assoc], (Lang_seqList_lits A A).2 rfl, ?_⟩
    exact (Lang_seqList_cons _ _ (y ++ B)).2
      ⟨y, B, rfl, (Lang_yearsRE y).2 hy, (Lang_seqList_lits B B).2 rfl⟩

theorem parseLoop_placeholder (A B : Str) :
    parseLoop (A.map Tok.lit ++ yearsToks ++ B.map Tok.lit) [[]]
      = some (placeholderRE A B) := by
  have hB := parseLoop_lits B [] (yearsRE :: (A.reverse.map RE.lit ++ [])) []
  rw [List.append_nil] at hB
  rw [List.append_assoc, parseLoop_lits A (yearsToks ++ B.map Tok.lit) [] [],
    parseLoop_years (B.map Tok.lit) (A.reverse.map RE.lit ++ []) [], hB]
  show some (seqList (B.reverse.map RE.lit
      ++ yearsRE :: (A.reverse.map RE.lit ++ [])).reverse) = some (placeholderRE A B)
  unfold placeholderRE
  congr 2
  simp [List.reverse_append]

theorem tokenize_placeholder_body (A pre post rest : Str)
    (hA : benignStr A = true) (hpre : benignStr pre = true) (hpost : benignStr post = true) :
    tokenize (escape_for_regex A
        ++ ' ' :: (escape_for_regex pre ++ (YEARS_REGEX ++ escape_for_regex post)) ++ rest)
      = (tokenize rest).map
          (fun ts => (A ++ ' ' :: pre).map Tok.lit ++ yearsToks ++ post.map Tok.lit ++ ts) := by
  have hpost' := tokenize_escape post (benignStr_forall post hpost) rest
  have hyrs : tokenize (YEARS_REGEX ++ (escape_for_regex post ++ rest))
      = (tokenize rest).map (fun ts => yearsToks ++ (post.map Tok.lit ++ ts)) := by
    rw [tokenize_append YEARS_REGEX yearsToks tokenize_YEARS, hpost']
    cases tokenize rest <;> simp
  have hpre' := tokenize_escape pre (benignStr_forall pre hpre)
    (YEARS_REGEX ++ (escape_for_regex post ++ rest))
  rw [hyrs] at hpre'
  obtain ⟨s1, s2, s3, s4, s5⟩ := space_plain_facts
  have hsp := tokenize_plain ' '
    (escape_for_regex pre ++ (YEARS_REGEX ++ (escape_for_regex post ++ rest))) s1 s2 s3 s4 s5
  rw [hpre'] at hsp
  have hA' := tokenize_escape A (benignStr_forall A hA)
    (' ' :: (escape_for_regex pre ++ (YEARS_REGEX ++ (escape_for_regex post ++ rest))))
  rw [hsp] at hA'
  rw [show escape_for_regex A
      ++ ' ' :: (escape_for_regex pre ++ (YEARS_REGEX ++ escape_for_regex post)) ++ rest
    = escape_for_regex A
      ++ ' ' :: (escape_for_regex pre ++ (YEARS_REGEX ++ (escape_for_regex post ++ rest))) by
    simp [List.append_assoc]]
  rw [hA']
  cases tokenize rest <;> simp
theorem compileRegex_with_placeholder (comment_sign : CommentSign) (template pre post : Str)
    (hsign : signBenign comment_sign = true)
    (hpre : benignStr pre = true) (hpost : benignStr post = true)
    (hsub : replaceAll '\\' (strL "\x7byears\\\x7d") YEARS_REGEX (escape_for_regex template)
      = escape_for_regex pre ++ YEARS_REGEX ++ escape_for_regex post) :
    compileRegex (generate_copyright_regex template comment_sign)
      = some (match comment_sign with
        | CommentSign.LeftOnly left => placeholderRE (left ++ ' ' :: pre) post
        | CommentSign.Enclosing left right =>
            placeholderRE (left ++ ' ' :: pre) (post ++ ' ' :: right)) := by
  cases comment_sign with
  | LeftOnly left =>
    have hl : benignStr left = true := hsign
    have htok : tokenize (escape_for_regex left
        ++ ' ' :: (escape_for_regex pre ++ (YEARS_REGEX ++ escape_for_regex post)))
        = some ((left ++ ' ' :: pre).map Tok.lit ++ yearsToks ++ post.map Tok.lit) := by
      have h := tokenize_placeholder_body left pre post [] hl hpre hpost
      rw [List.append_nil] at h
      rw [h, tokenize_nil_eq]
      simp
    show compileRegex (strL "^" ++ escape_for_regex left ++ strL " "
        ++ replaceAll '\\' (strL "\x7byears\\\x7d") YEARS_REGEX (escape_for_regex template)
        ++ strL "$") = _
    rw [hsub]
    rw [show strL "^" ++ escape_for_regex left ++ strL " "
          ++ (escape_for_regex pre ++ YEARS_REGEX ++ escape_for_regex post) ++ strL "$"
        = '^' :: ((escape_for_regex left
            ++ ' ' :: (escape_for_regex pre ++ (YEARS_REGEX ++ escape_for_regex post)))
          ++ ['$']) by
      show ['^'] ++ escape_for_regex left ++ [' ']
          ++ (escape_for_regex pre ++ YEARS_REGEX ++ escape_for_regex post) ++ ['$'] = _
      simp [List.append_assoc]]
    rw [compileRegex_concat, htok]
    show parseLoop ((left ++ ' ' :: pre).map Tok.lit ++ yearsToks ++ post.map Tok.lit) [[]] = _
    rw [parseLoop_placeholder (left ++ ' ' :: pre) post]
  | Enclosing left right =>
    have hlr : benignStr left = true ∧ benignStr right = true := by
      have h := hsign
      simp only [signBenign, Bool.and_eq_true] at h
      exact h
    obtain ⟨s1, s2, s3, s4, s5⟩ := space_plain_facts
    have htok : tokenize (escape_for_regex left
        ++ ' ' :: (escape_for_regex pre ++ (YEARS_REGEX ++ escape_for_regex post))
        ++ (' ' :: escape_for_regex right))
        = some ((left ++ ' ' :: pre).map Tok.lit ++ yearsToks
            ++ (post ++ ' ' :: right).map Tok.lit) := by
      rw [tokenize_placeholder_body left pre post (' ' :: escape_for_regex right)
        hlr.1 hpre hpost,
        tokenize_plain ' ' (escape_for_regex right) s1 s2 s3 s4 s5,
        tokenize_escape_done right hlr.2]
      simp [List.append_assoc]
    show compileRegex (strL "^" ++ escape_for_regex left ++ strL " "
        ++ replaceAll '\\' (strL "\x7byears\\\x7d") YEARS_REGEX (escape_for_regex template)
        ++ strL " " ++ escape_for_regex right ++ strL "$") = _
    rw [hsub]
    rw [show strL "^" ++ escape_for_regex left ++ strL " "
          ++ (escape_for_regex pre ++ YEARS_REGEX ++ escape_for_regex post) ++ strL " "
          ++ escape_for_regex right ++ strL "$"
        = '^' :: ((escape_for_regex left
            ++ ' ' :: (escape_for_regex pre ++ (YEARS_REGEX ++ escape_for_regex post))
            ++ (' ' :: escape_for_regex right))
          ++ ['$']) by
      show ['^'] ++ escape_for_regex left ++ [' ']
          ++ (escape_for_regex pre ++ YEARS_REGEX ++ escape_for_regex post) ++ [' ']
          ++ escape_for_regex right ++ ['$'] = _
      simp [List.append_assoc]]
    rw [compileRegex_concat, htok]
    show parseLoop ((left ++ ' ' :: pre).map Tok.lit ++ yearsToks
        ++ (post ++ ' ' :: right).map Tok.lit) [[]] = _
    rw [parseLoop_placeholder (left ++ ' ' :: pre) (post ++ ' ' :: right)]

/-- C8: escaping makes the special characters literal.  (1) For every
comment sign and template over the well-behaved alphabet (which contains
all of `* . ( ) { } ^ $`) in which the `{years}` substitution is a no-op
(no placeholder), the pattern built by `generate_copyright_regex` matches a
candidate line exactly when the line is the literal single-space assembly
of the delimiters and the template.  (2) For every such template whose
escaped form splits as literal text around one `{years}` placeholder, the
pattern matches exactly the lines whose middle part is the template with
the placeholder replaced by a 4-digit year or a hyphenated pair of 4-digit
years.  In both cases every escaped special character is matched literally
and never interpreted as a pattern operator. -/
theorem escaped_specials_match_literally :
    (∀ (comment_sign : CommentSign) (template line : Str),
      signBenign comment_sign = true → benignStr template = true →
      replaceAll '\\' (strL "\x7byears\\\x7d") YEARS_REGEX (escape_for_regex template)
        = escape_for_regex template →
      regexIsMatch (generate_copyright_regex template comment_sign) line
        = some (decide (line = single_space_line comment_sign template)))
    ∧ (∀ (comment_sign : CommentSign) (template pre post line : Str),
      signBenign comment_sign = true → benignStr pre = true → benignStr post = true →
      replaceAll '\\' (strL "\x7byears\\\x7d") YEARS_REGEX (escape_for_regex template)
        = escape_for_regex pre ++ YEARS_REGEX ++ escape_for_regex post →
      (regexIsMatch (generate_copyright_regex template comment_sign) line = some true
        ↔ ∃ y, YearOrRangeP y
            ∧ line = single_space_line comment_sign (pre ++ y ++ post))) := by
  constructor
  · intro comment_sign template line hsign htmpl hno
    unfold regexIsMatch
    rw [compileRegex_no_placeholder comment_sign template hsign htmpl hno]
    show some (reMatch (seqList ((single_space_line comment_sign template).map RE.lit)) line)
        = some (decide (line = single_space_line comment_sign template))
    rw [reMatch_lits_decide]
  · intro comment_sign template pre post line hsign hpre hpost hsub
    unfold regexIsMatch
    rw [compileRegex_with_placeholder comment_sign template pre post hsign hpre hpost hsub]
    cases comment_sign with
    | LeftOnly left =>
      have hline : ∀ y : Str, (left ++ ' ' :: pre) ++ y ++ post
          = single_space_line (CommentSign.LeftOnly left) (pre ++ y ++ post) := by
        intro y
        show _ = left ++ [' '] ++ (pre ++ y ++ post)
        simp [List.append_assoc]
      show some (reMatch (placeholderRE (left ++ ' ' :: pre) post) line) = some true ↔ _
      constructor
      · intro h
        have hb : reMatch (placeholderRE (left ++ ' ' :: pre) post) line = true :=
          Option.some.inj h
        obtain ⟨y, hy, rfl⟩ :=
          (Lang_placeholderRE _ _ line).1 ((reMatch_iff_Lang _ line).1 hb)
        exact ⟨y, hy, hline y⟩
      · rintro ⟨y, hy, rfl⟩
        congr 1
        exact (reMatch_iff_Lang _ _).2
          ((Lang_placeholderRE _ _ _).2 ⟨y, hy, (hline y).symm⟩)
    | Enclosing left right =>
      have hline : ∀ y : Str, (left ++ ' ' :: pre) ++ y ++ (post ++ ' ' :: right)
          = single_space_line (CommentSign.Enclosing left right) (pre ++ y ++ post) := by
        intro y
        show _ = left ++ [' '] ++ (pre ++ y ++ post) ++ [' '] ++ right
        simp [List.append_assoc]
      show some (reMatch (placeholderRE (left ++ ' ' :: pre) (post ++ ' ' :: right)) line)
          = some true ↔ _
      constructor
      · intro h
        have hb : reMatch (placeholderRE (left ++ ' ' :: pre) (post ++ ' ' :: right)) line
            = true := Option.some.inj h
        obtain ⟨y, hy, rfl⟩ :=
          (Lang_placeholderRE _ _ line).1 ((reMatch_iff_Lang _ line).1 hb)
        exact ⟨y, hy, hline y⟩
      · rintro ⟨y, hy, rfl⟩
        congr 1
        exact (reMatch_iff_Lang _ _).2
          ((Lang_placeholderRE _ _ _).2 ⟨y, hy, (hline y).symm⟩)

/-- Witness for C8: a template containing all eight special characters with
enclosing delimiters containing `*` (literal matching, part 1), and a
placeholder template whose pattern accepts exactly the lines carrying a
year or a year range (part 2). -/
theorem escaped_specials_match_literally_witness :
    regexIsMatch (generate_copyright_regex (strL "v1.0 (c) *x* 2^\x7by\x7d $")
        (CommentSign.Enclosing (strL "/*") (strL "*/")))
      (strL "/* v1.0 (c) *x* 2^\x7by\x7d $ */") = some true
    ∧ regexIsMatch (generate_copyright_regex (strL "v1.0 (c) *x* 2^\x7by\x7d $")
        (CommentSign.Enclosing (strL "/*") (strL "*/")))
      (strL "/* v1A0 (c) xx 2^\x7by\x7d $ */") = some false
    ∧ regexIsMatch (generate_copyright_regex (strL "(c) *A* \x7byears\x7d.")
        (CommentSign.LeftOnly (strL "#")))
      (strL "# (c) *A* 2020-2021.") = some true
    ∧ regexIsMatch (generate_copyright_regex (strL "(c) *A* \x7byears\x7d.")
        (CommentSign.LeftOnly (strL "#")))
      (strL "# (c) *A* 20202021.") = some false := by
  refine ⟨?_, ?_, ?_, by decide⟩
  · rw [escaped_specials_match_literally.1 (CommentSign.Enclosing (strL "/*") (strL "*/"))
      (strL "v1.0 (c) *x* 2^\x7by\x7d $") (strL "/* v1.0 (c) *x* 2^\x7by\x7d $ */")
      (by decide) (by decide) (by decide)]
    decide
  · rw [escaped_specials_match_literally.1 (CommentSign.Enclosing (strL "/*") (strL "*/"))
      (strL "v1.0 (c) *x* 2^\x7by\x7d $") (strL "/* v1A0 (c) xx 2^\x7by\x7d $ */")
      (by decide) (by decide) (by decide)]
    decide
  · refine (escaped_specials_match_literally.2 (CommentSign.LeftOnly (strL "#"))
      (strL "(c) *A* \x7byears\x7d.") (strL "(c) *A* ") (strL ".")
      (strL "# (c) *A* 2020-2021.")
      (by decide) (by decide) (by decide) (by decide)).2 ?_
    refine ⟨strL "2020-2021", Or.inr ⟨strL "2020", strL "2021",
      by decide, by decide, by decide, by decide, by decide⟩, by decide⟩
theorem YearOrRangeP_length (y : Str) (h : YearOrRangeP y) :
    y.length = 4 ∨ y.length = 9 := by
  rcases h with ⟨h4, _⟩ | ⟨a, b, rfl, ha, hb, _, _⟩
  · exact Or.inl h4
  · right
    simp only [List.length_append, List.length_cons, ha, hb]

/-- Universal form of the C1 divergence: whenever the template decomposes
around one `{years}` placeholder (on the escaped side for the pattern, on
the plain side for the line) over the well-behaved alphabet, the line
`generate_copyright_line` produces is never matched by the pattern
`generate_copyright_regex` builds for the same style and template: the
line carries three-space separators where the pattern demands one, so the
matched and produced lines always differ in length. -/
theorem generated_line_never_matches (comment_sign : CommentSign)
    (template pre post years : Str)
    (hsign : signBenign comment_sign = true)
    (hpre : benignStr pre = true) (hpost : benignStr post = true)
    (hsub : replaceAll '\\' (strL "\x7byears\\\x7d") YEARS_REGEX (escape_for_regex template)
      = escape_for_regex pre ++ YEARS_REGEX ++ escape_for_regex post)
    (hrep : replaceAll '\x7b' (strL "years\x7d") years template = pre ++ years ++ post)
    (hyears : YearOrRangeP years) :
    regexIsMatch (generate_copyright_regex template comment_sign)
      (generate_copyright_line template comment_sign years) = some false := by
  unfold regexIsMatch
  rw [compileRegex_with_placeholder comment_sign template pre post hsign hpre hpost hsub]
  cases comment_sign with
  | LeftOnly left =>
    show some (reMatch (placeholderRE (left ++ ' ' :: pre) post)
        (generate_copyright_line template (CommentSign.LeftOnly left) years)) = some false
    congr 1
    cases hb : reMatch (placeholderRE (left ++ ' ' :: pre) post)
        (generate_copyright_line template (CommentSign.LeftOnly left) years) with
    | false => rfl
    | true =>
      exfalso
      obtain ⟨y, hy, heq⟩ :=
        (Lang_placeholderRE _ _ _).1 ((reMatch_iff_Lang _ _).1 hb)
      rw [gen_line_LeftOnly, hrep] at heq
      have hlen := congrArg List.length heq
      simp only [List.length_append, List.length_cons] at hlen
      rcases YearOrRangeP_length y hy with h | h <;>
        rcases YearOrRangeP_length years hyears with h' | h' <;> omega
  | Enclosing left right =>
    show some (reMatch (placeholderRE (left ++ ' ' :: pre) (post ++ ' ' :: right))
        (generate_copyright_line template (CommentSign.Enclosing left right) years))
      = some false
    congr 1
    cases hb : reMatch (placeholderRE (left ++ ' ' :: pre) (post ++ ' ' :: right))
        (generate_copyright_line template (CommentSign.Enclosing left right) years) with
    | false => rfl
    | true =>
      exfalso
      obtain ⟨y, hy, heq⟩ :=
        (Lang_placeholderRE _ _ _).1 ((reMatch_iff_Lang _ _).1 hb)
      rw [gen_line_Enclosing, hrep] at heq
      have hlen := congrArg List.length heq
      simp only [List.length_append, List.length_cons] at hlen
      rcases YearOrRangeP_length y hy with h | h <;>
        rcases YearOrRangeP_length years hyears with h' | h' <;> omega
